import Mathlib

/-!
Shallow embedding of the reconciliation / normalization / pagination logic of
`seller.py` (Ozon marketplace) and `market.py` (Yandex Market marketplace).

Python strings are modelled as lists of characters (`Str`), Python `int` as
`Int`, fallible Python code (code that can raise) as `Option`-valued
functions.  Each definition mirrors the control flow of the source function
it is named after.
-/

namespace SellerApis

/-- Python strings, modelled as lists of characters. -/
abbrev Str := List Char

/-- Convenience conversion from Lean string literals. -/
def str (s : String) : Str := s.toList

/-- Python's `list.remove(a)`: drop the first occurrence of `a`.  (The
source only calls it after an `in` test, so the no-occurrence case is
unreachable there; this model then returns the list unchanged.) -/
def removeFirst [DecidableEq α] : List α → α → List α
  | [], _ => []
  | x :: xs, a => if x = a then xs else x :: removeFirst xs a

/-- One row of the downloaded stock report, with the fields the code reads:
"Код" (code), "Количество" (quantity text), "Цена" (price text). -/
structure Record where
  code : Str
  quantity : Str
  price : Str
deriving DecidableEq

/-- Numeric value of a digit string (most significant digit first). -/
def digitsVal (ds : Str) : Nat := ds.foldl (fun n c => 10 * n + (c.toNat - 48)) 0

/-- ASCII whitespace, as stripped by Python `int()` before parsing. -/
def isPySpace (c : Char) : Bool := c == ' ' || c == '\t' || c == '\n' || c == '\r'

/-- Strip leading and trailing whitespace. -/
def pyStrip (s : Str) : Str := ((s.dropWhile isPySpace).reverse.dropWhile isPySpace).reverse

/-- Model of Python `int(s)` on a string: optional surrounding whitespace, an
optional sign, then a nonempty run of ASCII digits; anything else raises
`ValueError` (modelled as `none`).  (Digit-group underscores, accepted by
CPython, are not modelled; no claim depends on them.) -/
def pyInt (s : Str) : Option Int :=
  match pyStrip s with
  | [] => none
  | '-' :: ds => if !ds.isEmpty && ds.all Char.isDigit then some (-(digitsVal ds : Int)) else none
  | '+' :: ds => if !ds.isEmpty && ds.all Char.isDigit then some (digitsVal ds : Int) else none
  | ds => if ds.all Char.isDigit then some (digitsVal ds : Int) else none

/-- The quantity-normalization rule applied to a matched record's quantity
text, from `seller.py` lines 252-258 and `market.py` lines 191-197:
`">10"` becomes 100, `"1"` becomes 0, anything else goes through `int()`. -/
def normalizeQty (q : Str) : Option Int :=
  if q = str ">10" then some 100
  else if q = str "1" then some 0
  else pyInt q

/-- One element of the list `seller.create_stocks` builds:
`{"offer_id": ..., "stock": ...}`. -/
structure StockEntry where
  offer_id : Str
  stock : Int
deriving DecidableEq

/-- `seller.create_stocks(watch_remnants, offer_ids)` (lines 249-264).  The
loop over `watch_remnants` appends an entry for each record whose code is in
the current `offer_ids` and removes that code (first occurrence, like
`list.remove`); a failing `int()` aborts the call (`none`); afterwards every
identifier still in the list gets a zero-stock entry. -/
def create_stocks : List Record → List Str → Option (List StockEntry)
  | [], ids => some (ids.map fun i => ⟨i, 0⟩)
  | w :: ws, ids =>
    if w.code ∈ ids then
      match normalizeQty w.quantity with
      | none => none
      | some s => (create_stocks ws (removeFirst ids w.code)).map (⟨w.code, s⟩ :: ·)
    else create_stocks ws ids

/-- The final value of the caller-supplied `offer_ids` list after
`create_stocks` returns: the matching loop removes each matched code. -/
def remainingIds : List Record → List Str → List Str
  | [], ids => ids
  | w :: ws, ids =>
    if w.code ∈ ids then remainingIds ws (removeFirst ids w.code) else remainingIds ws ids

/-- The codes matched (and removed from `offer_ids`) by `create_stocks`,
in the order their records appear. -/
def matchedCodes : List Record → List Str → List Str
  | [], _ => []
  | w :: ws, ids =>
    if w.code ∈ ids then w.code :: matchedCodes ws (removeFirst ids w.code)
    else matchedCodes ws ids

/-- The matched-record entries of `create_stocks` alone (the part of the
output produced by the first loop). -/
def matchedStocks : List Record → List Str → Option (List StockEntry)
  | [], _ => some []
  | w :: ws, ids =>
    if w.code ∈ ids then
      match normalizeQty w.quantity with
      | none => none
      | some s => (matchedStocks ws (removeFirst ids w.code)).map (⟨w.code, s⟩ :: ·)
    else matchedStocks ws ids

/-- `seller.price_conversion(price)` (line 332):
`re.sub("[^0-9]", "", price.split(".")[0])` — the characters before the
first `'.'`, with every non-digit removed. -/
def price_conversion (p : Str) : Str :=
  (p.takeWhile (· != '.')).filter Char.isDigit

/-- One element of the list `seller.create_prices` builds. -/
structure PriceEntry where
  offer_id : Str
  price : Str
  old_price : Str
  currency_code : Str
  auto_action_enabled : Str
deriving DecidableEq

/-- `seller.create_prices(watch_remnants, offer_ids)` (lines 298-309): one
price entry per record whose code is in `offer_ids`; the identifier list is
not modified. -/
def create_prices : List Record → List Str → List PriceEntry
  | [], _ => []
  | w :: ws, ids =>
    if w.code ∈ ids then
      ⟨w.code, price_conversion w.price, str "0", str "RUB", str "UNKNOWN"⟩
        :: create_prices ws ids
    else create_prices ws ids

/-- One element of the `items` list in a Yandex Market stock entry. -/
structure MarketItem where
  count : Int
  type : Str
  updatedAt : Str
deriving DecidableEq

/-- One element of the list `market.create_stocks` builds. -/
structure MarketStockEntry where
  sku : Str
  warehouseId : Str
  items : List MarketItem
deriving DecidableEq

/-- `market.create_stocks(watch_remnants, offer_ids, warehouse_id)`
(lines 187-227).  Same matching, quantity normalization and mutation of
`offer_ids` as the Ozon version; the timestamp `date` (taken from
`datetime.utcnow()` in the source) is passed in as a parameter. -/
def marketCreateStocks (date wh : Str) :
    List Record → List Str → Option (List MarketStockEntry)
  | [], ids => some (ids.map fun i => ⟨i, wh, [⟨0, str "FIT", date⟩]⟩)
  | w :: ws, ids =>
    if w.code ∈ ids then
      match normalizeQty w.quantity with
      | none => none
      | some s =>
        (marketCreateStocks date wh ws (removeFirst ids w.code)).map
          (⟨w.code, wh, [⟨s, str "FIT", date⟩]⟩ :: ·)
    else marketCreateStocks date wh ws ids

/-- The Yandex Market shape of an Ozon stock entry with a given timestamp
and warehouse; used to relate the two `create_stocks` variants. -/
def toMarketEntry (date wh : Str) (e : StockEntry) : MarketStockEntry :=
  ⟨e.offer_id, wh, [⟨e.stock, str "FIT", date⟩]⟩

/-- One element of the list `market.create_prices` builds. -/
structure MarketPriceEntry where
  id : Str
  value : Int
  currencyId : Str
deriving DecidableEq

/-- `market.create_prices(watch_remnants, offer_ids)` (lines 252-268):
like the Ozon version but the price string goes through `int()`, which
raises (`none`) when `price_conversion` leaves no digits. -/
def marketCreatePrices : List Record → List Str → Option (List MarketPriceEntry)
  | [], _ => some []
  | w :: ws, ids =>
    if w.code ∈ ids then
      match pyInt (price_conversion w.price) with
      | none => none
      | some v => (marketCreatePrices ws ids).map (⟨w.code, v, str "RUR"⟩ :: ·)
    else marketCreatePrices ws ids

/-- The input shape of claim C4: digit groups joined by a single separator
character (`"5'990"`, `"12 340"`). -/
def joinSep (sep : Char) : List Str → Str
  | [] => []
  | [g] => g
  | g :: g2 :: gs => g ++ sep :: joinSep sep (g2 :: gs)

/-- `seller.divide(lst, n)` (lines 358-359): contiguous chunks of `n`
elements (the last chunk holds the remainder).  The source's
`range(0, len(lst), n)` presupposes `n > 0`; this definition returns `[]`
when `n = 0` and is only related to the source for `n > 0`. -/
def divide : List α → Nat → List (List α)
  | [], _ => []
  | _ :: _, 0 => []
  | x :: xs, n + 1 => (x :: xs).take (n + 1) :: divide ((x :: xs).drop (n + 1)) (n + 1)
termination_by l _ => l.length
decreasing_by
  simp only [List.length_drop, List.length_cons]
  omega

/-- `seller.download_stock` (lines 201-217), abstracted over its external
effects: `fetchOk` is whether the HTTP download and archive extraction
succeed (a failure there raises before any `ostatki.xls` is written), and
`parsed` is the outcome of `pd.read_excel` on the extracted file (`none`
models a raised parse error).  The result pairs the returned record list
(`none` = the call raised) with whether the extracted `ostatki.xls` file
still exists on disk after the call: the source runs `os.remove` only after
a successful `read_excel`, on the straight-line path. -/
def download_stock (fetchOk : Bool) (parsed : Option (List Record)) :
    Option (List Record) × Bool :=
  if fetchOk then
    match parsed with
    | some r => (some r, false)
    | none => (none, true)
  else (none, false)

/-- One page of Ozon's `POST /v2/product/list` response, as read by
`seller.get_offer_ids`: the `offer_id`s of its items, the reported `total`,
and the `last_id` cursor. -/
structure OzonPage where
  items : List Str
  total : Nat
  lastId : Str

/-- The `while True` loop of `seller.get_offer_ids` (lines 78-90), with the
marketplace modelled as a function from the `last_id` cursor to a page and
with explicit fuel: `none` means the loop is still running after `fuel`
iterations.  Each iteration extends the accumulator and stops when the
reported total equals the accumulated length. -/
def ozonOfferIdsLoop (server : Str → OzonPage) : Nat → Str → List Str → Option (List Str)
  | 0, _, _ => none
  | fuel + 1, lastId, acc =>
    let r := server lastId
    let acc2 := acc ++ r.items
    if r.total = acc2.length then some acc2
    else ozonOfferIdsLoop server fuel r.lastId acc2

/-- `seller.get_offer_ids`, starting from the empty cursor and accumulator. -/
def ozonGetOfferIds (server : Str → OzonPage) (fuel : Nat) : Option (List Str) :=
  ozonOfferIdsLoop server fuel [] []

/-- One page of Yandex Market's offer-mapping-entries response, as read by
`market.get_offer_ids`: the `shopSku`s of its entries and the
`nextPageToken` (empty = no further pages). -/
structure MarketPage where
  entries : List Str
  nextPageToken : Str

/-- The `while True` loop of `market.get_offer_ids` (lines 149-158): stops
when the next-page token of the page just fetched is empty. -/
def marketOfferIdsLoop (server : Str → MarketPage) : Nat → Str → List Str → Option (List Str)
  | 0, _, _ => none
  | fuel + 1, page, acc =>
    let r := server page
    let acc2 := acc ++ r.entries
    if r.nextPageToken = [] then some acc2
    else marketOfferIdsLoop server fuel r.nextPageToken acc2

/-- `market.get_offer_ids`, starting from the empty page token. -/
def marketGetOfferIds (server : Str → MarketPage) (fuel : Nat) : Option (List Str) :=
  marketOfferIdsLoop server fuel [] []

/-- The sequence of page tokens the Yandex loop walks through, starting
from token `p`. -/
def marketChainFrom (server : Str → MarketPage) : Str → Nat → Str
  | p, 0 => p
  | p, k + 1 => marketChainFrom server ((server p).nextPageToken) k

/-- The (cursor, accumulated-count) state of the Ozon loop after `k`
iterations from state `s`. -/
def ozonChain (server : Str → OzonPage) : Str × Nat → Nat → Str × Nat
  | s, 0 => s
  | (l, c), k + 1 => ozonChain server ((server l).lastId, c + (server l).items.length) k

/-- The Ozon loop's stop condition holds at step `k` of the walk from
state `s`. -/
def ozonStopAt (server : Str → OzonPage) (s : Str × Nat) (k : Nat) : Prop :=
  (server (ozonChain server s k).1).total
    = (ozonChain server s k).2 + (server (ozonChain server s k).1).items.length

/-- A response stream on which the Ozon pagination loop never stops: every
page reports `total = 1` while contributing no items. -/
def ozonBadServer : Str → OzonPage := fun _ => ⟨[], 1, []⟩

/-- Identifiers of a stock-update list. -/
def stockIds (st : List StockEntry) : List Str := st.map (·.offer_id)

/-- Drop the timestamp field from a market stock entry, keeping everything
else (sku, warehouse, and each item's count and type). -/
def stripEntry (e : MarketStockEntry) : Str × Str × List (Int × Str) :=
  (e.sku, e.warehouseId, e.items.map fun it => (it.count, it.type))

/-! ### Helper lemmas about the reconciliation functions -/

theorem removeFirst_sublist [DecidableEq α] (l : List α) (a : α) :
    (removeFirst l a).Sublist l := by
  induction l with
  | nil => simp [removeFirst]
  | cons x xs ih =>
    rw [removeFirst]
    by_cases h : x = a
    · rw [if_pos h]; exact (List.Sublist.refl xs).cons x
    · rw [if_neg h]; exact ih.cons₂ x

theorem perm_cons_removeFirst [DecidableEq α] {l : List α} {a : α} (h : a ∈ l) :
    l.Perm (a :: removeFirst l a) := by
  induction l with
  | nil => cases h
  | cons x xs ih =>
    rw [removeFirst]
    by_cases hx : x = a
    · rw [if_pos hx]; subst hx; exact List.Perm.refl _
    · rw [if_neg hx]
      have hmem : a ∈ xs := by
        rcases List.mem_cons.mp h with h' | h'
        · exact absurd h'.symm hx
        · exact h'
      exact ((ih hmem).cons x).trans (List.Perm.swap a x _)

theorem mem_of_mem_removeFirst [DecidableEq α] {l : List α} {a b : α}
    (h : b ∈ removeFirst l a) : b ∈ l :=
  (removeFirst_sublist l a).subset h

theorem not_mem_removeFirst [DecidableEq α] {l : List α} (hl : l.Nodup) (a : α) :
    a ∉ removeFirst l a := by
  induction l with
  | nil => simp [removeFirst]
  | cons x xs ih =>
    rw [removeFirst]
    by_cases hx : x = a
    · rw [if_pos hx]; subst hx; exact (List.nodup_cons.mp hl).1
    · rw [if_neg hx]
      intro hmem
      rcases List.mem_cons.mp hmem with h' | h'
      · exact hx h'.symm
      · exact ih (List.nodup_cons.mp hl).2 h'

/-- `create_stocks` splits as the matched entries followed by zero-fill
entries for the identifiers left in the caller's list. -/
theorem create_stocks_decomp (R : List Record) : ∀ I : List Str,
    create_stocks R I
      = (matchedStocks R I).map
          (· ++ (remainingIds R I).map fun i => (⟨i, 0⟩ : StockEntry)) := by
  induction R with
  | nil => intro I; simp [create_stocks, matchedStocks, remainingIds]
  | cons w ws ih =>
    intro I
    by_cases hc : w.code ∈ I
    · simp only [create_stocks, matchedStocks, remainingIds, if_pos hc]
      cases hq : normalizeQty w.quantity with
      | none => simp
      | some s =>
        rw [ih (removeFirst I w.code)]
        cases matchedStocks ws (removeFirst I w.code) <;> simp
    · simp only [create_stocks, matchedStocks, remainingIds, if_neg hc]
      exact ih I

/-- The identifiers of a successful `create_stocks` output are a
permutation of the supplied identifier list. -/
theorem stockIds_perm (R : List Record) : ∀ (I : List Str) (st : List StockEntry),
    create_stocks R I = some st → (stockIds st).Perm I := by
  induction R with
  | nil =>
    intro I st h
    simp only [create_stocks, Option.some.injEq] at h
    subst h
    simp [stockIds, List.map_map, Function.comp_def]
  | cons w ws ih =>
    intro I st h
    by_cases hc : w.code ∈ I
    · rw [create_stocks, if_pos hc] at h
      cases hq : normalizeQty w.quantity with
      | none => rw [hq] at h; cases h
      | some s =>
        rw [hq] at h
        cases hrec : create_stocks ws (removeFirst I w.code) with
        | none => rw [hrec] at h; cases h
        | some st' =>
          rw [hrec] at h
          simp only [Option.map_some', Option.some.injEq] at h
          subst h
          exact (((ih _ _ hrec).cons w.code)).trans (perm_cons_removeFirst hc).symm
    · rw [create_stocks, if_neg hc] at h
      exact ih I st h

/-- The matched entries carry the codes of their records, in record order
(a sublist of the record codes). -/
theorem matchedStocks_ids_sublist (R : List Record) :
    ∀ (I : List Str) (M : List StockEntry),
    matchedStocks R I = some M → (stockIds M).Sublist (R.map (·.code)) := by
  induction R with
  | nil =>
    intro I M h
    simp only [matchedStocks, Option.some.injEq] at h
    subst h
    simp [stockIds, List.map_map, Function.comp_def]
  | cons w ws ih =>
    intro I M h
    by_cases hc : w.code ∈ I
    · rw [matchedStocks, if_pos hc] at h
      cases hq : normalizeQty w.quantity with
      | none => rw [hq] at h; cases h
      | some s =>
        rw [hq] at h
        cases hrec : matchedStocks ws (removeFirst I w.code) with
        | none => rw [hrec] at h; cases h
        | some M' =>
          rw [hrec] at h
          simp only [Option.map_some', Option.some.injEq] at h
          subst h
          exact (ih _ _ hrec).cons₂ w.code
    · rw [matchedStocks, if_neg hc] at h
      exact (ih I M h).cons w.code

/-- What is left of the caller's identifier list is a sublist of it
(order preserved, occurrences only removed). -/
theorem remainingIds_sublist (R : List Record) :
    ∀ I : List Str, (remainingIds R I).Sublist I := by
  induction R with
  | nil => intro I; simp [remainingIds]
  | cons w ws ih =>
    intro I
    by_cases hc : w.code ∈ I
    · rw [remainingIds, if_pos hc]
      exact (ih (removeFirst I w.code)).trans (removeFirst_sublist I w.code)
    · rw [remainingIds, if_neg hc]
      exact ih I

/-- Every price entry's identifier is both a supplied identifier and the
code of some record. -/
theorem create_prices_mem (R : List Record) :
    ∀ (I : List Str) (p : PriceEntry), p ∈ create_prices R I →
      p.offer_id ∈ I ∧ ∃ w ∈ R, w.code = p.offer_id ∧ price_conversion w.price = p.price := by
  induction R with
  | nil => intro I p h; simp [create_prices] at h
  | cons w ws ih =>
    intro I p h
    by_cases hc : w.code ∈ I
    · rw [create_prices, if_pos hc] at h
      rcases List.mem_cons.mp h with h | h
      · subst h
        exact ⟨hc, w, List.mem_cons_self .., rfl, rfl⟩
      · rcases ih I p h with ⟨h1, w', hw', h2, h3⟩
        exact ⟨h1, w', List.mem_cons_of_mem _ hw', h2, h3⟩
    · rw [create_prices, if_neg hc] at h
      rcases ih I p h with ⟨h1, w', hw', h2, h3⟩
      exact ⟨h1, w', List.mem_cons_of_mem _ hw', h2, h3⟩

/-- Every entry of a successful `create_stocks` output is either a zero
fill or carries the normalized quantity of a record with its code. -/
theorem create_stocks_source (R : List Record) :
    ∀ (I : List Str) (st : List StockEntry) (e : StockEntry),
    create_stocks R I = some st → e ∈ st →
      e.stock = 0 ∨ ∃ w ∈ R, w.code = e.offer_id ∧ normalizeQty w.quantity = some e.stock := by
  induction R with
  | nil =>
    intro I st e h he
    simp only [create_stocks, Option.some.injEq] at h
    subst h
    rcases List.mem_map.mp he with ⟨i, _, rfl⟩
    exact Or.inl rfl
  | cons w ws ih =>
    intro I st e h he
    by_cases hc : w.code ∈ I
    · rw [create_stocks, if_pos hc] at h
      cases hq : normalizeQty w.quantity with
      | none => rw [hq] at h; cases h
      | some s =>
        rw [hq] at h
        cases hrec : create_stocks ws (removeFirst I w.code) with
        | none => rw [hrec] at h; cases h
        | some st' =>
          rw [hrec] at h
          simp only [Option.map_some', Option.some.injEq] at h
          subst h
          rcases List.mem_cons.mp he with rfl | he'
          · exact Or.inr ⟨w, List.mem_cons_self .., rfl, hq⟩
          · rcases ih _ _ _ hrec he' with h0 | ⟨w', hw', h1, h2⟩
            · exact Or.inl h0
            · exact Or.inr ⟨w', List.mem_cons_of_mem _ hw', h1, h2⟩
    · rw [create_stocks, if_neg hc] at h
      rcases ih _ _ _ h he with h0 | ⟨w', hw', h1, h2⟩
      · exact Or.inl h0
      · exact Or.inr ⟨w', List.mem_cons_of_mem _ hw', h1, h2⟩

/-- `create_stocks` fails only because some record whose code is among the
supplied identifiers has an unparseable quantity text. -/
theorem create_stocks_none (R : List Record) :
    ∀ I : List Str, create_stocks R I = none →
      ∃ w ∈ R, normalizeQty w.quantity = none ∧ w.code ∈ I := by
  induction R with
  | nil => intro I h; simp [create_stocks] at h
  | cons w ws ih =>
    intro I h
    by_cases hc : w.code ∈ I
    · rw [create_stocks, if_pos hc] at h
      cases hq : normalizeQty w.quantity with
      | none => exact ⟨w, List.mem_cons_self .., hq, hc⟩
      | some s =>
        rw [hq] at h
        cases hrec : create_stocks ws (removeFirst I w.code) with
        | none =>
          rcases ih _ hrec with ⟨w', hw', h1, h2⟩
          exact ⟨w', List.mem_cons_of_mem _ hw', h1, mem_of_mem_removeFirst h2⟩
        | some st' => rw [hrec] at h; cases h
    · rw [create_stocks, if_neg hc] at h
      rcases ih _ h with ⟨w', hw', h1, h2⟩
      exact ⟨w', List.mem_cons_of_mem _ hw', h1, h2⟩

/-- `market.create_stocks` is `seller.create_stocks` with each entry recast
into the Yandex Market shape (same matching, same stock values). -/
theorem marketCreateStocks_eq (date wh : Str) (R : List Record) : ∀ I : List Str,
    marketCreateStocks date wh R I
      = (create_stocks R I).map (List.map (toMarketEntry date wh)) := by
  induction R with
  | nil =>
    intro I
    simp [marketCreateStocks, create_stocks, toMarketEntry, List.map_map, Function.comp_def]
  | cons w ws ih =>
    intro I
    by_cases hw : w.code ∈ I
    · simp only [marketCreateStocks, create_stocks, if_pos hw]
      cases hq : normalizeQty w.quantity with
      | none => simp
      | some s =>
        rw [ih]
        cases create_stocks ws (removeFirst I w.code) <;> simp [toMarketEntry]
    · simp only [marketCreateStocks, create_stocks, if_neg hw]
      exact ih I

/-- With no duplicate identifiers, a code matched (and removed) by the
stock loop is no longer in the caller's list afterwards. -/
theorem matchedCodes_disjoint_remaining (R : List Record) :
    ∀ I : List Str, I.Nodup → ∀ c ∈ matchedCodes R I, c ∉ remainingIds R I := by
  induction R with
  | nil => intro I _ c hc; simp [matchedCodes] at hc
  | cons w ws ih =>
    intro I hI c hc
    by_cases hw : w.code ∈ I
    · rw [matchedCodes, if_pos hw] at hc
      rw [remainingIds, if_pos hw]
      rcases List.mem_cons.mp hc with rfl | hc'
      · intro hmem
        exact not_mem_removeFirst hI _ ((remainingIds_sublist ws _).subset hmem)
      · exact ih _ ((removeFirst_sublist I w.code).nodup hI) c hc'
    · rw [matchedCodes, if_neg hw] at hc
      rw [remainingIds, if_neg hw]
      exact ih I hI c hc

/-- Unfolding equation for `divide` on a nonempty list and positive size. -/
theorem divide_cons (x : α) (xs : List α) (k : Nat) :
    divide (x :: xs) (k + 1)
      = (x :: xs).take (k + 1) :: divide ((x :: xs).drop (k + 1)) (k + 1) := by
  simp only [divide]

/-- `divide` produces no chunk from the empty list. -/
theorem divide_nil (n : Nat) : divide ([] : List α) n = [] := by
  cases n <;> simp [divide]

/-- `divide` produces at least one chunk from a nonempty list. -/
theorem divide_ne_nil {l : List α} {n : Nat} (hn : 0 < n) (hl : l ≠ []) :
    divide l n ≠ [] := by
  cases l with
  | nil => exact absurd rfl hl
  | cons x xs =>
    cases n with
    | zero => omega
    | succ k => rw [divide_cons]; simp

/-- Concatenating the chunks of `divide` restores the original list. -/
theorem divide_join (n : Nat) (hn : 0 < n) :
    ∀ (m : Nat) (l : List α), l.length ≤ m → (divide l n).flatten = l := by
  obtain ⟨k, rfl⟩ : ∃ k, n = k + 1 := ⟨n - 1, by omega⟩
  intro m
  induction m with
  | zero =>
    intro l hm
    have : l = [] := List.eq_nil_of_length_eq_zero (Nat.le_zero.mp hm)
    subst this
    simp [divide_nil]
  | succ m ih =>
    intro l hm
    cases l with
    | nil => simp [divide_nil]
    | cons x xs =>
      rw [divide_cons, List.flatten_cons]
      rw [ih ((x :: xs).drop (k + 1))
        (by simp only [List.length_drop, List.length_cons] at hm ⊢; omega)]
      exact List.take_append_drop _ _

/-- Every chunk except possibly the last has length exactly `n`. -/
theorem divide_dropLast_length (n : Nat) (hn : 0 < n) :
    ∀ (m : Nat) (l : List α), l.length ≤ m →
      ∀ c ∈ (divide l n).dropLast, c.length = n := by
  obtain ⟨k, rfl⟩ : ∃ k, n = k + 1 := ⟨n - 1, by omega⟩
  intro m
  induction m with
  | zero =>
    intro l hm c hc
    have : l = [] := List.eq_nil_of_length_eq_zero (Nat.le_zero.mp hm)
    subst this
    simp [divide_nil] at hc
  | succ m ih =>
    intro l hm c hc
    cases l with
    | nil => simp [divide_nil] at hc
    | cons x xs =>
      rw [divide_cons] at hc
      by_cases hd : (x :: xs).drop (k + 1) = []
      · rw [hd, divide_nil] at hc
        simp at hc
      · have hne : divide ((x :: xs).drop (k + 1)) (k + 1) ≠ [] :=
          divide_ne_nil (Nat.succ_pos k) hd
        rw [List.dropLast_cons_of_ne_nil hne] at hc
        rcases List.mem_cons.mp hc with rfl | hc'
        · have hlt : k + 1 < (x :: xs).length := by
            by_contra hle
            exact hd (List.drop_eq_nil_of_le (by omega))
          simp only [List.length_take, List.length_cons] at hlt ⊢
          omega
        · refine ih _ ?_ c hc'
          simp only [List.length_drop, List.length_cons] at hm ⊢
          omega

/-- The last chunk of a nonempty list is nonempty and no longer than `n`. -/
theorem divide_getLast (n : Nat) (hn : 0 < n) :
    ∀ (m : Nat) (l : List α), l.length ≤ m → l ≠ [] →
      ∃ c, (divide l n).getLast? = some c ∧ 1 ≤ c.length ∧ c.length ≤ n := by
  obtain ⟨k, rfl⟩ : ∃ k, n = k + 1 := ⟨n - 1, by omega⟩
  intro m
  induction m with
  | zero =>
    intro l hm hl
    exact absurd (List.eq_nil_of_length_eq_zero (Nat.le_zero.mp hm)) hl
  | succ m ih =>
    intro l hm hl
    cases l with
    | nil => exact absurd rfl hl
    | cons x xs =>
      rw [divide_cons]
      by_cases hd : (x :: xs).drop (k + 1) = []
      · rw [hd, divide_nil]
        refine ⟨(x :: xs).take (k + 1), rfl, ?_, ?_⟩
        · simp [List.length_take]
        · simp [List.length_take]
      · obtain ⟨c, hc, h1, h2⟩ :=
          ih ((x :: xs).drop (k + 1))
            (by simp only [List.length_drop, List.length_cons] at hm ⊢; omega) hd
        refine ⟨c, ?_, h1, h2⟩
        cases hrec : divide ((x :: xs).drop (k + 1)) (k + 1) with
        | nil => exact absurd hrec (divide_ne_nil (Nat.succ_pos k) hd)
        | cons y ys =>
          rw [hrec] at hc
          rw [List.getLast?_cons_cons]
          exact hc

/-- `takeWhile (· != sep)` of a list that reaches `sep` after a sep-free
run returns exactly that run. -/
theorem takeWhile_until_dot (r : Str) :
    ∀ A : Str, (∀ c ∈ A, c ≠ '.') → (A ++ '.' :: r).takeWhile (· != '.') = A := by
  intro A
  induction A with
  | nil => intro _; simp [List.takeWhile_cons]
  | cons a as ih =>
    intro hA
    have ha : a ≠ '.' := hA a (List.mem_cons_self ..)
    simp only [List.cons_append, List.takeWhile_cons, bne_iff_ne, ne_eq, ha,
      not_false_eq_true, if_true]
    rw [ih fun c hc => hA c (List.mem_cons_of_mem _ hc)]

/-- Every character of `joinSep sep gs` is the separator or comes from a
group. -/
theorem mem_joinSep (sep : Char) :
    ∀ (gs : List Str) (c : Char), c ∈ joinSep sep gs → c = sep ∨ ∃ g ∈ gs, c ∈ g := by
  intro gs
  induction gs with
  | nil => intro c hc; simp [joinSep] at hc
  | cons g gs ih =>
    intro c hc
    cases gs with
    | nil => exact Or.inr ⟨g, List.mem_cons_self .., by simpa [joinSep] using hc⟩
    | cons g2 gs2 =>
      rw [joinSep] at hc
      rcases List.mem_append.mp hc with h | h
      · exact Or.inr ⟨g, List.mem_cons_self .., h⟩
      · rcases List.mem_cons.mp h with rfl | h'
        · exact Or.inl rfl
        · rcases ih c h' with h0 | ⟨g', hg', hcg'⟩
          · exact Or.inl h0
          · exact Or.inr ⟨g', List.mem_cons_of_mem _ hg', hcg'⟩

/-- Filtering digits out of digit groups joined by a non-digit separator
yields the concatenation of the groups. -/
theorem filter_isDigit_joinSep (sep : Char) (hsep : ¬ sep.isDigit) :
    ∀ gs : List Str, (∀ g ∈ gs, ∀ c ∈ g, c.isDigit) →
      (joinSep sep gs).filter Char.isDigit = gs.flatten := by
  intro gs
  induction gs with
  | nil => intro _; simp [joinSep]
  | cons g gs ih =>
    intro h
    cases gs with
    | nil =>
      simp only [joinSep, List.flatten_cons, List.flatten_nil, List.append_nil]
      exact List.filter_eq_self.mpr fun c hc => h g (List.mem_cons_self ..) c hc
    | cons g2 gs2 =>
      rw [joinSep, List.filter_append, List.flatten_cons]
      rw [List.filter_eq_self.mpr fun c hc => h g (List.mem_cons_self ..) c hc]
      rw [List.filter_cons_of_neg (by simpa using hsep)]
      rw [ih fun g' hg' => h g' (List.mem_cons_of_mem _ hg')]

/-- One-step unfolding of the Ozon pagination loop. -/
theorem ozonLoop_step (server : Str → OzonPage) (f : Nat) (l : Str) (acc : List Str) :
    ozonOfferIdsLoop server (f + 1) l acc
      = if (server l).total = (acc ++ (server l).items).length
        then some (acc ++ (server l).items)
        else ozonOfferIdsLoop server f (server l).lastId (acc ++ (server l).items) := rfl

/-- One-step unfolding of the Yandex pagination loop. -/
theorem marketLoop_step (server : Str → MarketPage) (f : Nat) (p : Str) (acc : List Str) :
    marketOfferIdsLoop server (f + 1) p acc
      = if (server p).nextPageToken = []
        then some (acc ++ (server p).entries)
        else marketOfferIdsLoop server f (server p).nextPageToken (acc ++ (server p).entries) :=
  rfl

/-- On the Ozon bad stream the pagination loop never stops, whatever the
fuel: the accumulator stays empty while the reported total is 1. -/
theorem ozonBadServer_loop_none :
    ∀ (f : Nat) (l : Str), ozonOfferIdsLoop ozonBadServer f l [] = none := by
  intro f
  induction f with
  | zero => intro l; rfl
  | succ f ih =>
    intro l
    simpa [ozonOfferIdsLoop, ozonBadServer] using ih []

/-- If the Yandex token walk from page `p` reaches the empty token within
`k + 1` steps, the loop returns with fuel `k + 1` from any accumulator. -/
theorem marketLoop_stops (server : Str → MarketPage) :
    ∀ (k : Nat) (p : Str) (acc : List Str),
      marketChainFrom server p (k + 1) = [] →
      ∃ r, marketOfferIdsLoop server (k + 1) p acc = some r := by
  intro k
  induction k with
  | zero =>
    intro p acc h
    simp only [marketChainFrom] at h
    exact ⟨acc ++ (server p).entries, by rw [marketLoop_step, if_pos h]⟩
  | succ k ih =>
    intro p acc h
    by_cases hp : (server p).nextPageToken = []
    · exact ⟨acc ++ (server p).entries, by rw [marketLoop_step, if_pos hp]⟩
    · have h' : marketChainFrom server ((server p).nextPageToken) (k + 1) = [] := by
        simpa [marketChainFrom] using h
      obtain ⟨r, hr⟩ := ih ((server p).nextPageToken) (acc ++ (server p).entries) h'
      exact ⟨r, by rw [marketLoop_step, if_neg hp]; exact hr⟩

/-- If the Ozon count walk from cursor `l` and count `acc.length` meets
the stop condition at step `k`, the loop returns with fuel `k + 1`. -/
theorem ozonLoop_stops (server : Str → OzonPage) :
    ∀ (k : Nat) (l : Str) (acc : List Str),
      ozonStopAt server (l, acc.length) k →
      ∃ r, ozonOfferIdsLoop server (k + 1) l acc = some r := by
  intro k
  induction k with
  | zero =>
    intro l acc h
    simp only [ozonStopAt, ozonChain] at h
    refine ⟨acc ++ (server l).items, ?_⟩
    rw [ozonLoop_step, if_pos (by simp [List.length_append, h])]
  | succ k ih =>
    intro l acc h
    by_cases hc : (server l).total = (acc ++ (server l).items).length
    · exact ⟨acc ++ (server l).items, by rw [ozonLoop_step, if_pos hc]⟩
    · have h' : ozonStopAt server ((server l).lastId, (acc ++ (server l).items).length) k := by
        simpa [ozonStopAt, ozonChain, List.length_append] using h
      obtain ⟨r, hr⟩ := ih _ (acc ++ (server l).items) h'
      exact ⟨r, by rw [ozonLoop_step, if_neg hc]; exact hr⟩

/-! ### Claim theorems -/

/-- C1 (counterexample): with a duplicated catalog identifier the claim's
"each appearing exactly once" fails — `create_stocks` with records `[]` and
identifiers `["A", "A"]` zero-fills `"A"` twice. -/
theorem c1_duplicate_identifier_counterexample :
    create_stocks [] [str "A", str "A"] = some [⟨str "A", 0⟩, ⟨str "A", 0⟩]
      ∧ (stockIds [⟨str "A", 0⟩, ⟨str "A", 0⟩]).count (str "A") = 2 := by
  decide

/-- C1 (amended): when the catalog identifier list has no duplicates, the
identifiers of a successful `create_stocks` output are exactly the supplied
identifiers, each exactly once; the identifiers of `create_prices` output
are always among both the supplied identifiers and the record codes. -/
theorem c1_reconciliation_completeness (R : List Record) (I : List Str)
    (st : List StockEntry) (hI : I.Nodup) (h : create_stocks R I = some st) :
    (stockIds st).Nodup
      ∧ (∀ x, x ∈ stockIds st ↔ x ∈ I)
      ∧ ∀ p ∈ create_prices R I, p.offer_id ∈ I ∧ p.offer_id ∈ R.map (·.code) := by
  have hperm := stockIds_perm R I st h
  refine ⟨hperm.symm.nodup hI, fun x => hperm.mem_iff, ?_⟩
  · intro p hp
    obtain ⟨h1, w, hw, h2, _⟩ := create_prices_mem R I p hp
    exact ⟨h1, h2 ▸ List.mem_map_of_mem _ hw⟩

/-- C1 witness: a concrete reconciliation with identifiers
`["A123", "B456"]` and one matched record. -/
theorem c1_reconciliation_completeness_witness :
    (stockIds [⟨str "A123", 100⟩, ⟨str "B456", 0⟩]).Nodup
      ∧ (∀ x, x ∈ stockIds [⟨str "A123", 100⟩, ⟨str "B456", 0⟩]
            ↔ x ∈ [str "A123", str "B456"])
      ∧ ∀ p ∈ create_prices [⟨str "A123", str ">10", str "9.0"⟩]
            [str "A123", str "B456"],
          p.offer_id ∈ [str "A123", str "B456"]
            ∧ p.offer_id ∈ [(⟨str "A123", str ">10", str "9.0"⟩ : Record)].map (·.code) :=
  c1_reconciliation_completeness
    [⟨str "A123", str ">10", str "9.0"⟩] [str "A123", str "B456"]
    [⟨str "A123", 100⟩, ⟨str "B456", 0⟩] (by decide) (by decide)

/-- C2: the quantity-normalization rule — `">10"` maps to 100, `"1"` maps
to 0, anything else goes through the integer parser; every matched stock
value comes from that rule, a failure only arises from an unparseable
quantity of an in-catalog record, and the Yandex Market variant applies
the identical rule. -/
theorem c2_quantity_normalization_rule :
    (normalizeQty (str ">10") = some 100 ∧ normalizeQty (str "1") = some 0
        ∧ ∀ q : Str, q ≠ str ">10" → q ≠ str "1" → normalizeQty q = pyInt q)
      ∧ (∀ (R : List Record) (I : List Str) (st : List StockEntry) (e : StockEntry),
          create_stocks R I = some st → e ∈ st →
            e.stock = 0
              ∨ ∃ w ∈ R, w.code = e.offer_id ∧ normalizeQty w.quantity = some e.stock)
      ∧ (∀ (R : List Record) (I : List Str), create_stocks R I = none →
          ∃ w ∈ R, normalizeQty w.quantity = none ∧ w.code ∈ I)
      ∧ ∀ (d wh : Str) (R : List Record) (I : List Str),
          marketCreateStocks d wh R I
            = (create_stocks R I).map (List.map (toMarketEntry d wh)) := by
  refine ⟨⟨by decide, by decide, ?_⟩, create_stocks_source, create_stocks_none,
    fun d wh R I => marketCreateStocks_eq d wh R I⟩
  intro q h1 h2
  rw [normalizeQty, if_neg h1, if_neg h2]

/-- C2 witness: the rule evaluated on a record with quantity text `"7"`. -/
theorem c2_quantity_normalization_rule_witness :
    (⟨str "A", 7⟩ : StockEntry).stock = 0
      ∨ ∃ w ∈ [(⟨str "A", str "7", str "1.0"⟩ : Record)],
          w.code = (⟨str "A", 7⟩ : StockEntry).offer_id
            ∧ normalizeQty w.quantity = some (⟨str "A", 7⟩ : StockEntry).stock :=
  c2_quantity_normalization_rule.2.1
    [⟨str "A", str "7", str "1.0"⟩] [str "A"] [⟨str "A", 7⟩] ⟨str "A", 7⟩
    (by decide) (by decide)

/-- C3 (counterexample): with the duplicated identifier list `["A", "A"]`
the code `"A"` is matched yet still present in the caller's list, and the
subsequent `create_prices` on that list emits a price update for the very
record that was matched during the stock step. -/
theorem c3_mutation_counterexample :
    matchedCodes [⟨str "A", str "5", str "1"⟩] [str "A", str "A"] = [str "A"]
      ∧ str "A" ∈ remainingIds [⟨str "A", str "5", str "1"⟩] [str "A", str "A"]
      ∧ (create_prices [⟨str "A", str "5", str "1"⟩]
          (remainingIds [⟨str "A", str "5", str "1"⟩] [str "A", str "A"])).length = 1 := by
  decide

/-- C3 (amended): `create_stocks` leaves the caller's list holding exactly
the zero-filled identifiers; when the list has no duplicate identifiers,
every matched code has been removed from it, and the `create_prices` call
that reuses the list emits no price update for a stock-matched code. -/
theorem c3_identifier_list_mutation (R : List Record) (I : List Str) (hI : I.Nodup) :
    (∀ st, create_stocks R I = some st →
        ∃ M, matchedStocks R I = some M
          ∧ st = M ++ (remainingIds R I).map fun i => (⟨i, 0⟩ : StockEntry))
      ∧ (∀ c ∈ matchedCodes R I, c ∉ remainingIds R I)
      ∧ ∀ p ∈ create_prices R (remainingIds R I), p.offer_id ∉ matchedCodes R I := by
  refine ⟨?_, matchedCodes_disjoint_remaining R I hI, ?_⟩
  · intro st h
    rw [create_stocks_decomp] at h
    cases hm : matchedStocks R I with
    | none => rw [hm] at h; cases h
    | some M =>
      rw [hm] at h
      simp only [Option.map_some', Option.some.injEq] at h
      exact ⟨M, rfl, h.symm⟩
  · intro p hp hmem
    obtain ⟨h1, _⟩ := create_prices_mem R (remainingIds R I) p hp
    exact matchedCodes_disjoint_remaining R I hI p.offer_id hmem h1

/-- C3 witness: the amended statement at a concrete matched/unmatched
pair of identifiers. -/
theorem c3_identifier_list_mutation_witness :
    (∀ st, create_stocks [⟨str "A", str "5", str "1"⟩] [str "A", str "B"] = some st →
        ∃ M, matchedStocks [⟨str "A", str "5", str "1"⟩] [str "A", str "B"] = some M
          ∧ st = M ++ (remainingIds [⟨str "A", str "5", str "1"⟩]
              [str "A", str "B"]).map fun i => (⟨i, 0⟩ : StockEntry))
      ∧ (∀ c ∈ matchedCodes [⟨str "A", str "5", str "1"⟩] [str "A", str "B"],
          c ∉ remainingIds [⟨str "A", str "5", str "1"⟩] [str "A", str "B"])
      ∧ ∀ p ∈ create_prices [⟨str "A", str "5", str "1"⟩]
            (remainingIds [⟨str "A", str "5", str "1"⟩] [str "A", str "B"]),
          p.offer_id ∉ matchedCodes [⟨str "A", str "5", str "1"⟩] [str "A", str "B"] :=
  c3_identifier_list_mutation [⟨str "A", str "5", str "1"⟩] [str "A", str "B"] (by decide)

/-- C4: on inputs of the form digit-groups joined by a non-digit separator,
then a dot, a fractional part and a suffix, `price_conversion` returns the
concatenation of the integer-part digit groups; the spec's two examples
evaluate as stated, both as digit strings and as numbers. -/
theorem c4_price_normalization :
    (∀ (gs : List Str) (sep : Char) (rest : Str),
        (∀ g ∈ gs, ∀ c ∈ g, c.isDigit) → ¬ sep.isDigit → sep ≠ '.' →
        price_conversion (joinSep sep gs ++ '.' :: rest) = gs.flatten)
      ∧ price_conversion (str "5'990.00 руб.") = str "5990"
      ∧ price_conversion (str "12 340.00 руб.") = str "12340"
      ∧ digitsVal (price_conversion (str "5'990.00 руб.")) = 5990
      ∧ digitsVal (price_conversion (str "12 340.00 руб.")) = 12340 := by
  refine ⟨?_, by decide, by decide, by decide, by decide⟩
  intro gs sep rest hdig hsep hdot
  have hnodot : ∀ c ∈ joinSep sep gs, c ≠ '.' := by
    intro c hc
    rcases mem_joinSep sep gs c hc with rfl | ⟨g, hg, hcg⟩
    · exact hdot
    · intro hceq
      have : ('.' : Char).isDigit = true := hceq ▸ hdig g hg c hcg
      simp at this
  rw [price_conversion, takeWhile_until_dot rest (joinSep sep gs) hnodot]
  exact filter_isDigit_joinSep sep hsep gs hdig

/-- C4 witness: the general statement applied to the groups of
`"5'990.00 руб."`. -/
theorem c4_price_normalization_witness :
    price_conversion (joinSep '\'' [str "5", str "990"] ++ '.' :: str "00 руб.")
      = ([str "5", str "990"] : List Str).flatten :=
  c4_price_normalization.1 [str "5", str "990"] '\'' (str "00 руб.")
    (by decide) (by decide) (by decide)

/-- C5: for positive `n`, the chunks of `divide` concatenate back to the
original list, all chunks but the last have length exactly `n`, the last
chunk of a nonempty list has length between 1 and `n`, and the spec's
example evaluates as stated. -/
theorem c5_divide_batcher :
    (∀ {α : Type} (l : List α) (n : Nat), 0 < n →
        (divide l n).flatten = l
          ∧ (∀ c ∈ (divide l n).dropLast, c.length = n)
          ∧ (l ≠ [] → ∃ c, (divide l n).getLast? = some c
              ∧ 1 ≤ c.length ∧ c.length ≤ n))
      ∧ divide [1, 2, 3, 4, 5] 2 = [[1, 2], [3, 4], [5]] := by
  constructor
  · intro α l n hn
    exact ⟨divide_join n hn l.length l le_rfl,
      divide_dropLast_length n hn l.length l le_rfl,
      fun hl => divide_getLast n hn l.length l le_rfl hl⟩
  · simp [divide]

/-- C5 witness: the batcher properties at the list `[10, 20, 30]` with
chunk size 2. -/
theorem c5_divide_batcher_witness :
    (divide [10, 20, 30] 2).flatten = [10, 20, 30]
      ∧ (∀ c ∈ (divide [10, 20, 30] 2).dropLast, c.length = 2)
      ∧ ([10, 20, 30] ≠ [] → ∃ c, (divide [10, 20, 30] 2).getLast? = some c
          ∧ 1 ≤ c.length ∧ c.length ≤ 2) :=
  c5_divide_batcher.1 [10, 20, 30] 2 (by decide)

/-- C6 (counterexample): on the exit path where the spreadsheet parse
fails after extraction, the extracted `ostatki.xls` persists — the source
removes it only after a successful `read_excel`. -/
theorem c6_cleanup_counterexample :
    download_stock true none = (none, true) := rfl

/-- C6 (amended): `download_stock` removes the extracted file before
returning on the normal path — whenever it returns a record list, no
extraction artifact persists; on the parse-failure exit path the file is
left behind. -/
theorem c6_scoped_cleanup (fetchOk : Bool) (parsed : Option (List Record))
    (r : List Record) (h : (download_stock fetchOk parsed).1 = some r) :
    (download_stock fetchOk parsed).2 = false := by
  cases fetchOk <;> cases parsed <;> simp [download_stock] at h ⊢

/-- C6 witness: a successful run leaves no artifact behind. -/
theorem c6_scoped_cleanup_witness :
    (download_stock true (some [])).2 = false :=
  c6_scoped_cleanup true (some []) [] rfl

/-- C7 (counterexample): the retrieval loop does not terminate for every
response stream — on the stream that always reports `total = 1` with no
items, no amount of fuel makes `get_offer_ids` return. -/
theorem c7_nontermination_counterexample :
    ¬ ∃ f, (ozonGetOfferIds ozonBadServer f).isSome := by
  rintro ⟨f, hf⟩
  rw [ozonGetOfferIds, ozonBadServer_loop_none f []] at hf
  cases hf

/-- C7 (amended): the loops have no iteration cap and stop exactly on the
marketplace's signal — the Yandex variant returns once the page-token walk
reaches an empty token, and the Ozon variant returns once the accumulated
count meets the reported total along its walk. -/
theorem c7_pagination_termination :
    (∀ server : Str → MarketPage,
        (∃ k, marketChainFrom server [] (k + 1) = []) →
        ∃ f r, marketGetOfferIds server f = some r)
      ∧ ∀ server : Str → OzonPage,
          (∃ k, ozonStopAt server ([], 0) k) →
          ∃ f r, ozonGetOfferIds server f = some r := by
  constructor
  · rintro server ⟨k, hk⟩
    obtain ⟨r, hr⟩ := marketLoop_stops server k [] [] hk
    exact ⟨k + 1, r, hr⟩
  · rintro server ⟨k, hk⟩
    obtain ⟨r, hr⟩ := ozonLoop_stops server k [] [] hk
    exact ⟨k + 1, r, hr⟩

/-- C7 witness: a server that immediately signals the empty token makes
the Yandex retrieval terminate. -/
theorem c7_pagination_termination_witness :
    ∃ f r, marketGetOfferIds (fun _ => ⟨[str "S1"], []⟩) f = some r :=
  c7_pagination_termination.1 (fun _ => ⟨[str "S1"], []⟩) ⟨0, rfl⟩

/-- C8 (counterexample): the quantity text `"-5"` parses as the literal
integer -5, so `create_stocks` succeeds with a negative stock value — the
claim's "never succeeds with a negative quantity" fails. -/
theorem c8_negative_quantity_counterexample :
    create_stocks [⟨str "A", str "-5", str "1"⟩] [str "A"] = some [⟨str "A", -5⟩]
      ∧ (⟨str "A", -5⟩ : StockEntry).stock < 0 := by
  decide

/-- C8 (amended): quantity normalization is total — `create_stocks` either
returns defined integer stock values or fails — and every produced stock
value is non-negative provided no record's quantity text parses as a
negative integer literal. -/
theorem c8_quantity_total_nonnegative (R : List Record) (I : List Str)
    (st : List StockEntry) (e : StockEntry)
    (hpos : ∀ w ∈ R, ∀ k : Int, pyInt w.quantity = some k → 0 ≤ k)
    (h : create_stocks R I = some st) (he : e ∈ st) : 0 ≤ e.stock := by
  rcases create_stocks_source R I st e h he with h0 | ⟨w, hw, _, hq⟩
  · simp [h0]
  · rw [normalizeQty] at hq
    split_ifs at hq with h1 h2
    · simp only [Option.some.injEq] at hq
      omega
    · simp only [Option.some.injEq] at hq
      omega
    · exact hpos w hw e.stock hq

/-- C8 witness: a record with quantity text `"3"` yields stock 3 ≥ 0. -/
theorem c8_quantity_total_nonnegative_witness :
    0 ≤ (⟨str "B", 3⟩ : StockEntry).stock :=
  c8_quantity_total_nonnegative [⟨str "B", str "3", str "1"⟩] [str "B"]
    [⟨str "B", 3⟩] ⟨str "B", 3⟩
    (by
      intro w hw k hk
      simp only [List.mem_singleton] at hw
      subst hw
      rw [show pyInt (str "3") = some 3 by decide] at hk
      simp only [Option.some.injEq] at hk
      omega)
    (by decide) (by decide)

/-- C9: a successful `create_stocks` output is the matched entries — whose
identifiers follow the record order (a sublist of the record codes) —
followed by the zero-filled entries for the leftover identifiers in
catalog order (a sublist of the identifier list); the Yandex Market
variant produces the same list entrywise recast. -/
theorem c9_output_ordering (R : List Record) (I : List Str) (st : List StockEntry)
    (h : create_stocks R I = some st) :
    ∃ M, st = M ++ (remainingIds R I).map (fun i => (⟨i, 0⟩ : StockEntry))
      ∧ (stockIds M).Sublist (R.map (·.code))
      ∧ (remainingIds R I).Sublist I
      ∧ (∀ e ∈ (remainingIds R I).map (fun i => (⟨i, 0⟩ : StockEntry)), e.stock = 0)
      ∧ ∀ d wh : Str, marketCreateStocks d wh R I
          = some (st.map (toMarketEntry d wh)) := by
  have hdec := create_stocks_decomp R I
  rw [h] at hdec
  cases hm : matchedStocks R I with
  | none => rw [hm] at hdec; cases hdec
  | some M =>
    rw [hm] at hdec
    simp only [Option.map_some', Option.some.injEq] at hdec
    refine ⟨M, hdec, matchedStocks_ids_sublist R I M hm, remainingIds_sublist R I, ?_, ?_⟩
    · intro e he
      rcases List.mem_map.mp he with ⟨i, _, rfl⟩
      rfl
    · intro d wh
      rw [marketCreateStocks_eq d wh R I, h]
      rfl

/-- C9 witness: the ordering at one matched record and one leftover
identifier. -/
theorem c9_output_ordering_witness :
    ∃ M, ([⟨str "A", 100⟩, ⟨str "B", 0⟩] : List StockEntry)
        = M ++ (remainingIds [⟨str "A", str ">10", str "1"⟩] [str "A", str "B"]).map
            (fun i => (⟨i, 0⟩ : StockEntry))
      ∧ (stockIds M).Sublist (([⟨str "A", str ">10", str "1"⟩] : List Record).map (·.code))
      ∧ (remainingIds [⟨str "A", str ">10", str "1"⟩] [str "A", str "B"]).Sublist
          [str "A", str "B"]
      ∧ (∀ e ∈ (remainingIds [⟨str "A", str ">10", str "1"⟩] [str "A", str "B"]).map
            (fun i => (⟨i, 0⟩ : StockEntry)), e.stock = 0)
      ∧ ∀ d wh : Str, marketCreateStocks d wh [⟨str "A", str ">10", str "1"⟩]
            [str "A", str "B"]
          = some (([⟨str "A", 100⟩, ⟨str "B", 0⟩] : List StockEntry).map
              (toMarketEntry d wh)) :=
  c9_output_ordering [⟨str "A", str ">10", str "1"⟩] [str "A", str "B"]
    [⟨str "A", 100⟩, ⟨str "B", 0⟩] (by decide)

/-- C10: reconciliation is a pure function of the record and identifier
lists — the Yandex Market stock output is independent of the run's
timestamp once the embedded `updatedAt` field is ignored, so two runs on
identical inputs agree. -/
theorem c10_reconciliation_idempotent (d₁ d₂ wh : Str) (R : List Record) (I : List Str) :
    (marketCreateStocks d₁ wh R I).map (List.map stripEntry)
      = (marketCreateStocks d₂ wh R I).map (List.map stripEntry) := by
  rw [marketCreateStocks_eq d₁ wh R I, marketCreateStocks_eq d₂ wh R I]
  cases create_stocks R I <;>
    simp [stripEntry, toMarketEntry, List.map_map, Function.comp_def]

end SellerApis
